import Mathlib

/-!
Verification of the commit-log storage core (store / index / segment).

The Go sources under `internal/log` are embedded shallowly:

* `store.go` — `store`, `newStore`, `store.Append`, `store.Read`:
  the file is a list of byte values (`List Nat`, each value a byte),
  the bufio writer is a second list of not-yet-flushed bytes, and
  `size` is the `uint64` size field (all `uint64` arithmetic is done
  in `Nat` with explicit `% 2^64`).
* the segment file — `segment`, `newSegment`, `segment.Append`,
  `segment.Read`, `segment.IsMaxed`, `nearestMultiple`.
* the index implementation is not part of the given sources (only its
  callers are), so `Index`, `indexRead` and `indexWrite` are modelled
  from the specification, as marked on their doc comments.

IO failure of the underlying file writes is modelled by explicit
failure flags (`storeFail`, `marshalFail`): the pure model can then
express both the happy path and the error paths the sources contain.
-/

namespace Proglog

/-- Record is the opaque payload with a mutable offset field
(`api.Record`, external to the storage core): a byte payload `value`
and the `uint64` `offset` the segment assigns on append. -/
structure Record where
  offset : Nat
  value : List Nat
  deriving Repr, DecidableEq

/-- Config is modelled from the spec: the two segment limits consumed
from the caller, `Segment.MaxStoreBytes` and `Segment.MaxIndexBytes`
(the configuration source file is not part of the given sources). -/
structure Config where
  maxStoreBytes : Nat
  maxIndexBytes : Nat
  deriving Repr, DecidableEq

/-- toBEbytes k n is the big-endian byte string of length `k` for `n`
(most significant byte first), as `encoding/binary.BigEndian` writes it. -/
def toBEbytes : Nat → Nat → List Nat
  | 0, _ => []
  | k + 1, n => toBEbytes k (n / 256) ++ [n % 256]

/-- toBE8 n is the 8-byte big-endian encoding of the `uint64` value of
`n`, the form `binary.Write(s.buf, enc, uint64(len(p)))` persists. -/
def toBE8 (n : Nat) : List Nat := toBEbytes 8 n

/-- fromBE8 decodes a big-endian byte string, as `enc.Uint64` does. -/
def fromBE8 (bs : List Nat) : Nat := bs.foldl (fun a b => a * 256 + b) 0

/-- marshal is modelled from the spec: the serialization capability
that turns a record into bytes (`proto.Marshal`, owned by the excluded
API layer). The model encodes the offset field as 8 big-endian bytes
followed by the raw payload. -/
def marshal (r : Record) : List Nat := toBE8 r.offset ++ r.value

/-- unmarshal is modelled from the spec: the inverse serialization
capability (`proto.Unmarshal`); it fails on malformed input. -/
def unmarshal (p : List Nat) : Except Unit Record :=
  if p.length < 8 then .error ()
  else .ok ⟨fromBE8 (p.take 8), p.drop 8⟩

/-- Store embeds `store` from `store.go`: `file` is the on-disk byte
string, `buf` the bytes sitting in the bufio writer not yet flushed,
`size` the `uint64` size field. -/
structure Store where
  file : List Nat
  buf : List Nat
  size : Nat
  deriving Repr, DecidableEq

/-- newStore opens a store over an existing file: the size field is
initialised from the file's current length (`uint64(fi.Size())`). -/
def newStore (file : List Nat) : Store :=
  ⟨file, [], file.length % 2 ^ 64⟩

/-- StoreAppendResult mirrors the Go multiple-value return of
`store.Append`: bytes written `n`, starting position `pos`, the
updated store, and the error flag (Go's zero values `0, 0` are
returned when the write fails). -/
structure StoreAppendResult where
  n : Nat
  pos : Nat
  store : Store
  err : Bool
  deriving Repr, DecidableEq

/-- storeAppend embeds `store.Append`: it records `pos = s.size`,
writes the 8-byte big-endian length of `p` followed by `p` into the
write buffer, adds `lenWidth = 8` to the written count and advances
`size` by it. `fail` injects an IO failure of the buffered write, on
which Go returns `0, 0, err`. -/
def storeAppend (s : Store) (p : List Nat) (fail : Bool) : StoreAppendResult :=
  if fail then ⟨0, 0, s, true⟩
  else
    ⟨(8 + p.length) % 2 ^ 64, s.size,
      { s with buf := s.buf ++ (toBE8 p.length ++ p),
               size := (s.size + (8 + p.length)) % 2 ^ 64 },
      false⟩

/-- storeRead embeds `store.Read`: it first flushes the write buffer,
then reads the 8-byte length at `pos` and the that-many following
bytes; a position past what was written (or one whose `int64` cast is
negative) makes `File.ReadAt` fail. The flushed store is returned
because the flush mutates the store. -/
def storeRead (s : Store) (pos : Nat) : Except Unit (List Nat) × Store :=
  let f := s.file ++ s.buf
  let s' : Store := ⟨f, [], s.size⟩
  if pos ≥ 2 ^ 63 then (.error (), s')
  else if pos + 8 > f.length then (.error (), s')
  else
    let len := fromBE8 ((f.drop pos).take 8)
    if pos + 8 + len > f.length then (.error (), s')
    else (.ok ((f.drop (pos + 8)).take len), s')

/-- Index is modelled from the spec (the index source file is not
part of the given sources): a dense append-only array of fixed-width
entries `(relative offset : uint32, store position : uint64)`, with a
backing region whose capacity is the configured maximum rounded down
to a multiple of the 12-byte entry width. -/
structure Index where
  entries : List (Nat × Nat)
  maxBytes : Nat
  deriving Repr, DecidableEq

/-- indexSize is the index's current size in bytes: entry count times
the 12-byte entry width. -/
def indexSize (idx : Index) : Nat := 12 * idx.entries.length

/-- indexRead is modelled from the spec: `-1` returns the last written
entry, a nonnegative argument returns the entry at that exact relative
slot; it fails with the out-of-range error when the index is empty
(for `-1`) or the slot has never been written. -/
def indexRead (idx : Index) (i : Int) : Except Unit (Nat × Nat) :=
  if i = -1 then
    match idx.entries.getLast? with
    | none => .error ()
    | some e => .ok e
  else if 0 ≤ i then
    match idx.entries[i.toNat]? with
    | none => .error ()
    | some e => .ok e
  else .error ()

/-- indexWrite is modelled from the spec: it appends a fixed-width
entry at the current end, failing with the capacity error when the
backing region's maximum would be exceeded. -/
def indexWrite (idx : Index) (off pos : Nat) : Except Unit Index :=
  if indexSize idx + 12 > idx.maxBytes then .error ()
  else .ok { idx with entries := idx.entries ++ [(off, pos)] }

/-- nearestMultiple embeds `nearestMultiple(j, k)` from the segment
source: the `j >= 0` test is kept even though the `uint64` operand
(here `Nat`) can never be negative, so the second branch is dead. -/
def nearestMultiple (j k : Nat) : Nat :=
  if j ≥ 0 then j / k * k
  else (j - k + 1) / k * k

/-- Segment embeds `segment`: one store, one index, `baseOffset`,
`nextOffset` and the configuration. -/
structure Segment where
  store : Store
  index : Index
  baseOffset : Nat
  nextOffset : Nat
  config : Config
  deriving Repr, DecidableEq

/-- newSegmentM embeds `newSegment`, with the opened files' contents
passed in place of the file system: the store's size comes from the
store file's length, the index capacity is the configured maximum
rounded down to a multiple of 12 (modelled from the spec, as the index
source is missing), and `nextOffset` is recovered from the index's
last entry: `baseOffset` when the index is empty, else
`baseOffset + uint64(off) + 1`. -/
def newSegmentM (storeFileBytes : List Nat) (idxEntries : List (Nat × Nat))
    (baseOffset : Nat) (c : Config) : Segment :=
  let st := newStore storeFileBytes
  let idx : Index := ⟨idxEntries, nearestMultiple c.maxIndexBytes 12⟩
  let nextOff :=
    match indexRead idx (-1) with
    | .error _ => baseOffset
    | .ok (off, _) => (baseOffset + off + 1) % 2 ^ 64
  ⟨st, idx, baseOffset, nextOff, c⟩

/-- closeSegment is modelled from the spec: closing flushes the
store's buffer into its file and truncates the index file to the
entries actually written; the pair is the on-disk contents a reopen
will see. -/
def closeSegment (seg : Segment) : List Nat × List (Nat × Nat) :=
  (seg.store.file ++ seg.store.buf, seg.index.entries)

/-- segmentAppend embeds `segment.Append` exactly as written: it sets
`record.Offset = cursor`, marshals, calls `store.Append` and discards
its error (`_, pos, err := s.store.Append(p)` is immediately
overwritten by `err = s.index.Write(...)`), writes the index entry
with `uint32(s.nextOffset - s.baseOffset)` (uint64 wrap then uint32
truncation) and the store position, and only then increments
`nextOffset`. `marshalFail` injects a serialization failure,
`storeFail` an IO failure of the store write. The triple returned is
(result, updated segment, the caller's mutated record). -/
def segmentAppend (seg : Segment) (rec : Record)
    (marshalFail storeFail : Bool) : Except Unit Nat × Segment × Record :=
  let cursor := seg.nextOffset
  let rec' : Record := { rec with offset := cursor }
  if marshalFail then (.error (), seg, rec')
  else
    let p := marshal rec'
    let r := storeAppend seg.store p storeFail
    match indexWrite seg.index ((cursor + 2 ^ 64 - seg.baseOffset) % 2 ^ 64 % 2 ^ 32) r.pos with
    | .error e => (.error e, { seg with store := r.store }, rec')
    | .ok idx' =>
        (.ok cursor,
         { seg with store := r.store, index := idx',
                    nextOffset := (seg.nextOffset + 1) % 2 ^ 64 },
         rec')

/-- segmentRead embeds `segment.Read`: the relative offset is
`int64(off - s.baseOffset)` — a `uint64` subtraction that wraps, then
a signed reinterpretation — the index supplies the position, the store
supplies the bytes (flushing its buffer first), and the bytes are
unmarshalled. The updated segment carries the flushed store. -/
def segmentRead (seg : Segment) (off : Nat) : Except Unit Record × Segment :=
  let d : Nat := (off + 2 ^ 64 - seg.baseOffset) % 2 ^ 64
  let rel : Int := if d < 2 ^ 63 then (d : Int) else (d : Int) - 2 ^ 64
  match indexRead seg.index rel with
  | .error e => (.error e, seg)
  | .ok (_, pos) =>
    match storeRead seg.store pos with
    | (.error e, st') => (.error e, { seg with store := st' })
    | (.ok p, st') =>
      match unmarshal p with
      | .error e => (.error e, { seg with store := st' })
      | .ok r => (.ok r, { seg with store := st' })

/-- isMaxed embeds `segment.IsMaxed`: the store size reached the
configured max store bytes, or the index size reached the configured
max index bytes. -/
def isMaxed (seg : Segment) : Bool :=
  seg.store.size ≥ seg.config.maxStoreBytes ||
    indexSize seg.index ≥ seg.config.maxIndexBytes

/-- appendAll drives `segment.Append` over a list of payloads (each
wrapped in a fresh record, as the segment's callers do), collecting
the returned offset and the mutated record of every successful call
and stopping at the first error. -/
def appendAll : Segment → List (List Nat) → Except Unit (List (Nat × Record) × Segment)
  | seg, [] => .ok ([], seg)
  | seg, v :: rest =>
    match segmentAppend seg ⟨0, v⟩ false false with
    | (.error e, _, _) => .error e
    | (.ok off, seg', rec') =>
      match appendAll seg' rest with
      | .error e => .error e
      | .ok (out, seg'') => .ok ((off, rec') :: out, seg'')

/-- readAll drives `segment.Read` over a list of absolute offsets,
threading the segment (whose store is mutated by the buffer flush)
and stopping at the first error. -/
def readAll : Segment → List Nat → Except Unit (List Record × Segment)
  | seg, [] => .ok ([], seg)
  | seg, off :: rest =>
    match segmentRead seg off with
    | (.error e, _) => .error e
    | (.ok r, seg') =>
      match readAll seg' rest with
      | .error e => .error e
      | .ok (rs, seg'') => .ok (r :: rs, seg'')

/-- flushSeg is the segment after its store's write buffer has been
flushed into the file, which is what a store read leaves behind. -/
def flushSeg (seg : Segment) : Segment :=
  { seg with store := ⟨seg.store.file ++ seg.store.buf, [], seg.store.size⟩ }

/-- framedLen is the total number of store bytes the framed records of
the given payloads occupy: 8 length bytes + 8 marshalled offset bytes
+ the payload, per record. -/
def framedLen : List (List Nat) → Nat
  | [] => 0
  | v :: rest => 16 + v.length + framedLen rest

/-- storeBytesFrom B k vs is the store byte string holding the records
with payloads `vs` at consecutive offsets `B + k`, `B + k + 1`, …,
each framed as length then marshalled record. -/
def storeBytesFrom (B : Nat) : Nat → List (List Nat) → List Nat
  | _, [] => []
  | k, v :: rest =>
      (toBE8 (8 + v.length) ++ (toBE8 (B + k) ++ v)) ++ storeBytesFrom B (k + 1) rest

/-- storeBytes B vs is the store contents after appending payloads
`vs` to a fresh segment with base offset B. -/
def storeBytes (B : Nat) (vs : List (List Nat)) : List Nat := storeBytesFrom B 0 vs

/-- entriesOf k pos vs is the index contents after those appends:
entry i carries relative offset (k + i) truncated to uint32 and the
running store position. -/
def entriesOf : Nat → Nat → List (List Nat) → List (Nat × Nat)
  | _, _, [] => []
  | k, pos, v :: rest => (k % 2 ^ 32, pos) :: entriesOf (k + 1) (pos + (16 + v.length)) rest

/-- Inv B vs seg says segment `seg` is in the state a fresh segment
with base offset B reaches after successfully appending the payloads
`vs`: store bytes, store size, index entries and nextOffset are all
determined by B and vs. -/
def Inv (B : Nat) (vs : List (List Nat)) (seg : Segment) : Prop :=
  seg.baseOffset = B ∧
  seg.nextOffset = B + vs.length ∧
  seg.store.file ++ seg.store.buf = storeBytes B vs ∧
  seg.store.size = framedLen vs ∧
  seg.index.entries = entriesOf 0 0 vs

/-- Small B vs bounds the offsets and store bytes of the appended
payloads away from the uint64 and int64 wrap points. -/
def Small (B : Nat) (vs : List (List Nat)) : Prop :=
  B + vs.length < 2 ^ 64 ∧ framedLen vs < 2 ^ 63

/-- Reach B c seg holds when segment state `seg` is reachable from a
fresh segment with base offset B and configuration c by any sequence
of appends (successful or failed, with any injected serialization or
store IO failures) and reads. -/
inductive Reach (B : Nat) (c : Config) : Segment → Prop
  | init : Reach B c (newSegmentM [] [] B c)
  | append (seg : Segment) (rec : Record) (mf sf : Bool) :
      Reach B c seg → Reach B c (segmentAppend seg rec mf sf).2.1
  | read (seg : Segment) (off : Nat) :
      Reach B c seg → Reach B c (segmentRead seg off).2

/-! Helper lemmas about the byte encodings. -/

theorem toBEbytes_length (k n : Nat) : (toBEbytes k n).length = k := by
  induction k generalizing n with
  | zero => rfl
  | succ k ih => simp [toBEbytes, ih]

theorem toBE8_length (n : Nat) : (toBE8 n).length = 8 := toBEbytes_length 8 n

theorem fromBE8_append_last (bs : List Nat) (b : Nat) :
    fromBE8 (bs ++ [b]) = fromBE8 bs * 256 + b := by
  simp [fromBE8, List.foldl_append]

theorem fromBE_toBEbytes (k n : Nat) : fromBE8 (toBEbytes k n) = n % 256 ^ k := by
  induction k generalizing n with
  | zero => simp [toBEbytes, fromBE8, Nat.mod_one]
  | succ k ih =>
    rw [toBEbytes, fromBE8_append_last, ih]
    have h : (256 : Nat) ^ (k + 1) = 256 * 256 ^ k := by ring
    rw [h, Nat.mod_mul]
    ring

theorem fromBE8_toBE8 (n : Nat) : fromBE8 (toBE8 n) = n % 2 ^ 64 := by
  have h : (256 : Nat) ^ 8 = 2 ^ 64 := by norm_num
  rw [toBE8, fromBE_toBEbytes, h]

/-- C5: store.Append on a store of current size S returns bytesWritten
8 + len(p) and position S, and leaves the store's size equal to
S + 8 + len(p), the byte offset of the next entry (stated below the
uint64 wrap point of the size field). -/
theorem store_append_size (s : Store) (p : List Nat)
    (h : s.size + 8 + p.length < 2 ^ 64) :
    (storeAppend s p false).err = false ∧
    (storeAppend s p false).n = 8 + p.length ∧
    (storeAppend s p false).pos = s.size ∧
    (storeAppend s p false).store.size = s.size + 8 + p.length := by
  refine ⟨rfl, ?_, rfl, ?_⟩ <;> simp [storeAppend] <;> omega

/-- Witness for C5 at the empty store and a 3-byte payload. -/
theorem store_append_size_witness :
    (storeAppend (newStore []) [1, 2, 3] false).err = false ∧
    (storeAppend (newStore []) [1, 2, 3] false).n = 11 ∧
    (storeAppend (newStore []) [1, 2, 3] false).pos = 0 ∧
    (storeAppend (newStore []) [1, 2, 3] false).store.size = 11 :=
  store_append_size (newStore []) [1, 2, 3] (by decide)

/-- C8: segment.IsMaxed returns true exactly when the store's current
size has reached the configured MaxStoreBytes or the index's current
size has reached the configured MaxIndexBytes. -/
theorem isMaxed_iff (seg : Segment) :
    isMaxed seg = true ↔
      (seg.store.size ≥ seg.config.maxStoreBytes ∨
        indexSize seg.index ≥ seg.config.maxIndexBytes) := by
  simp [isMaxed]

/-- C9: with k > 0, nearestMultiple j k equals (j / k) * k — the value
of the nonnegative branch, which is always taken because the unsigned
operand satisfies j ≥ 0 — and that value is the largest multiple of k
not exceeding j. -/
theorem nearestMultiple_eq_div_mul (j k : Nat) (hk : 0 < k) :
    nearestMultiple j k = j / k * k ∧
    k ∣ j / k * k ∧ j / k * k ≤ j ∧
    ∀ m, k ∣ m → m ≤ j → m ≤ j / k * k := by
  refine ⟨by simp [nearestMultiple], dvd_mul_left k (j / k), Nat.div_mul_le_self j k, ?_⟩
  intro m hm hmj
  obtain ⟨t, rfl⟩ := hm
  have ht : t ≤ j / k := (Nat.le_div_iff_mul_le hk).mpr (by rw [Nat.mul_comm]; exact hmj)
  calc k * t = t * k := Nat.mul_comm k t
    _ ≤ j / k * k := Nat.mul_le_mul_right k ht

/-- Witness for C9 at j = 100, k = 12. -/
theorem nearestMultiple_eq_div_mul_witness :
    nearestMultiple 100 12 = 100 / 12 * 12 ∧
    12 ∣ 100 / 12 * 12 ∧ 100 / 12 * 12 ≤ 100 ∧
    ∀ m, 12 ∣ m → m ≤ 100 → m ≤ 100 / 12 * 12 :=
  nearestMultiple_eq_div_mul 100 12 (by decide)

/-- C1: counter-evidence on the code. Injecting a store-append IO
failure on a fresh segment, segment.Append still writes an index entry
(pointing at position 0 of a store that persisted nothing) and returns
success with the assigned offset: the store-append error is discarded
because `err` is immediately overwritten by the index-write result
before it is ever checked. -/
theorem segment_append_masks_store_error :
    (segmentAppend (newSegmentM [] [] 0 ⟨1024, 1024⟩) ⟨0, [42]⟩ false true).1 = .ok 0 ∧
    (segmentAppend (newSegmentM [] [] 0 ⟨1024, 1024⟩) ⟨0, [42]⟩ false true).2.1.index.entries
      = [(0, 0)] ∧
    (segmentAppend (newSegmentM [] [] 0 ⟨1024, 1024⟩) ⟨0, [42]⟩ false true).2.1.store.size = 0 :=
  ⟨rfl, rfl, rfl⟩

/-- C2: counter-evidence on the code. On a segment with baseOffset 1
holding one record, reading absolute offset 0 — strictly below the
base offset — returns the record instead of the not-found error: the
uint64 subtraction `off - baseOffset` underflows to 2^64 - 1, whose
int64 reinterpretation is -1, the index's last-entry convention. -/
theorem segment_read_below_base_returns_record :
    ∃ pr, appendAll (newSegmentM [] [] 1 ⟨1024, 1024⟩) [[9]] = .ok pr ∧
      (segmentRead pr.2 0).1 = .ok ⟨1, [9]⟩ :=
  ⟨_, rfl, rfl⟩

/-- C10: whenever segment.Append returns an error — from the injected
serialization failure or from the index write — the segment's
nextOffset is unchanged, while the caller's record has already been
mutated to carry the attempted offset. -/
theorem segment_append_error_keeps_nextOffset (seg : Segment) (rec : Record)
    (mf sf : Bool) (res : Except Unit Nat) (seg' : Segment) (rec' : Record)
    (h : segmentAppend seg rec mf sf = (res, seg', rec'))
    (e : Unit) (herr : res = .error e) :
    seg'.nextOffset = seg.nextOffset ∧ rec'.offset = seg.nextOffset := by
  subst herr
  unfold segmentAppend at h
  split at h
  · injection h with h1 h23
    injection h23 with h2 h3
    subst h2; subst h3
    exact ⟨rfl, rfl⟩
  · dsimp only at h
    split at h
    · injection h with h1 h23
      injection h23 with h2 h3
      subst h2; subst h3
      exact ⟨rfl, rfl⟩
    · injection h with h1 h23
      cases h1

/-- Witness for C10: an index at capacity 0 makes the index write
fail; nextOffset stays 3 and the record was stamped with offset 3. -/
theorem segment_append_error_keeps_nextOffset_witness :
    (segmentAppend (newSegmentM [] [] 3 ⟨1024, 0⟩) ⟨0, [5]⟩ false false).2.1.nextOffset = 3 ∧
    (segmentAppend (newSegmentM [] [] 3 ⟨1024, 0⟩) ⟨0, [5]⟩ false false).2.2.offset = 3 :=
  segment_append_error_keeps_nextOffset (newSegmentM [] [] 3 ⟨1024, 0⟩) ⟨0, [5]⟩
    false false _ _ _ rfl () rfl

/-! Helper lemmas about the framed store layout and the index contents. -/

theorem framedLen_append (a b : List (List Nat)) :
    framedLen (a ++ b) = framedLen a + framedLen b := by
  induction a with
  | nil => simp [framedLen]
  | cons v rest ih => simp [framedLen, ih]; omega

theorem length_le_framedLen (vs : List (List Nat)) : vs.length ≤ framedLen vs := by
  induction vs with
  | nil => simp [framedLen]
  | cons v rest ih => simp [framedLen]; omega

theorem storeBytesFrom_length (B : Nat) (vs : List (List Nat)) (k : Nat) :
    (storeBytesFrom B k vs).length = framedLen vs := by
  induction vs generalizing k with
  | nil => rfl
  | cons v rest ih => simp [storeBytesFrom, framedLen, toBE8_length, ih]; omega

theorem storeBytesFrom_snoc (B : Nat) (vs : List (List Nat)) (v : List Nat) (k : Nat) :
    storeBytesFrom B k (vs ++ [v]) =
      storeBytesFrom B k vs ++ (toBE8 (8 + v.length) ++ (toBE8 (B + (k + vs.length)) ++ v)) := by
  induction vs generalizing k with
  | nil => simp [storeBytesFrom]
  | cons w rest ih =>
    simp only [List.cons_append, storeBytesFrom, List.length_cons, List.append_eq]
    rw [ih (k + 1)]
    have h : k + 1 + rest.length = k + (rest.length + 1) := by omega
    rw [h]
    simp [List.append_assoc]

theorem entriesOf_length (vs : List (List Nat)) (k pos : Nat) :
    (entriesOf k pos vs).length = vs.length := by
  induction vs generalizing k pos with
  | nil => rfl
  | cons v rest ih => simp [entriesOf, ih]

theorem entriesOf_snoc (vs : List (List Nat)) (v : List Nat) (k pos : Nat) :
    entriesOf k pos (vs ++ [v]) =
      entriesOf k pos vs ++ [((k + vs.length) % 2 ^ 32, pos + framedLen vs)] := by
  induction vs generalizing k pos with
  | nil => simp [entriesOf, framedLen]
  | cons w rest ih =>
    simp only [List.cons_append, entriesOf, List.length_cons, framedLen, List.append_eq]
    rw [ih]
    have h1 : k + 1 + rest.length = k + (rest.length + 1) := by omega
    have h2 : pos + (16 + w.length) + framedLen rest = pos + (16 + w.length + framedLen rest) := by
      omega
    rw [h1, h2]

theorem entriesOf_getElem (vs : List (List Nat)) (i k pos : Nat) (h : i < vs.length) :
    (entriesOf k pos vs)[i]? = some ((k + i) % 2 ^ 32, pos + framedLen (vs.take i)) := by
  induction vs generalizing i k pos with
  | nil => simp at h
  | cons v rest ih =>
    cases i with
    | zero => simp [entriesOf, framedLen]
    | succ i =>
      have h' : i < rest.length := by simpa using h
      simp only [entriesOf, List.getElem?_cons_succ, List.take_succ_cons, framedLen]
      rw [ih i (k + 1) (pos + (16 + v.length)) h']
      have h1 : k + 1 + i = k + (i + 1) := by omega
      have h2 : pos + (16 + v.length) + framedLen (rest.take i)
          = pos + (16 + v.length + framedLen (rest.take i)) := by omega
      rw [h1, h2]

theorem wrap_cancel (B i : Nat) (h : i < 2 ^ 64) : (B + i + 2 ^ 64 - B) % 2 ^ 64 = i := by
  have h1 : B + i + 2 ^ 64 - B = i + 2 ^ 64 := by omega
  rw [h1, Nat.add_mod_right]
  exact Nat.mod_eq_of_lt h

theorem Small_of_snoc (B : Nat) (pre : List (List Nat)) (v : List Nat)
    (rest : List (List Nat)) (h : Small B (pre ++ v :: rest)) : Small B (pre ++ [v]) := by
  obtain ⟨h1, h2⟩ := h
  simp only [List.length_append, List.length_cons] at h1
  simp only [framedLen_append, framedLen] at h2
  refine ⟨?_, ?_⟩
  · simp only [List.length_append, List.length_cons, List.length_nil]
    omega
  · simp only [framedLen_append, framedLen]
    omega

theorem Inv_fresh (B : Nat) (c : Config) : Inv B [] (newSegmentM [] [] B c) := by
  refine ⟨rfl, ?_, rfl, rfl, rfl⟩
  simp [newSegmentM, indexRead, newStore]

theorem Inv_flush (B : Nat) (vs : List (List Nat)) (seg : Segment)
    (h : Inv B vs seg) : Inv B vs (flushSeg seg) := by
  obtain ⟨h1, h2, h3, h4, h5⟩ := h
  exact ⟨h1, h2, by simpa [flushSeg] using h3, h4, h5⟩

theorem append_step (B : Nat) (vs : List (List Nat)) (seg : Segment) (v : List Nat)
    (x off : Nat) (seg' : Segment) (rec' : Record)
    (hinv : Inv B vs seg) (hsm : Small B (vs ++ [v]))
    (h : segmentAppend seg ⟨x, v⟩ false false = (.ok off, seg', rec')) :
    off = B + vs.length ∧ rec'.offset = B + vs.length ∧ Inv B (vs ++ [v]) seg' := by
  obtain ⟨hbase, hnext, hfile, hsize, hents⟩ := hinv
  have hs1 : B + vs.length + 1 < 2 ^ 64 := by
    have h' := hsm.1
    simp only [List.length_append, List.length_cons, List.length_nil] at h'
    omega
  have hs2 : framedLen vs + (16 + v.length) < 2 ^ 63 := by
    have h' := hsm.2
    rw [framedLen_append, framedLen, framedLen] at h'
    omega
  have hvslen : vs.length < 2 ^ 64 := by omega
  unfold segmentAppend at h
  rw [if_neg (by simp)] at h
  dsimp only at h
  split at h
  · injection h with h1 h23
    cases h1
  · injection h with h1 h23
    injection h23 with h2 h3
    injection h1 with hoff
    subst h2
    subst h3
    rename_i idx' hiw
    unfold indexWrite at hiw
    split at hiw
    · cases hiw
    · injection hiw with hidx
      subst hidx
      have hplen : (marshal ⟨seg.nextOffset, v⟩).length = 8 + v.length := by
        simp [marshal, toBE8_length]
      have hrel : (seg.nextOffset + 2 ^ 64 - seg.baseOffset) % 2 ^ 64 = vs.length := by
        rw [hbase, hnext]
        exact wrap_cancel B vs.length hvslen
      refine ⟨by rw [← hoff, hnext], by simpa using hnext, hbase, ?_, ?_, ?_, ?_⟩
      · dsimp only
        rw [hnext, List.length_append, List.length_cons, List.length_nil]
        have h64 : B + vs.length + 1 < 2 ^ 64 := hs1
        rw [Nat.mod_eq_of_lt h64]
        omega
      · dsimp only [storeAppend]
        rw [if_neg (by simp)]
        dsimp only
        rw [← List.append_assoc, hfile, hplen]
        have hm : marshal ⟨seg.nextOffset, v⟩ = toBE8 (B + vs.length) ++ v := by
          rw [marshal, hnext]
        rw [hm, storeBytes, storeBytes, storeBytesFrom_snoc]
        simp
      · dsimp only [storeAppend]
        rw [if_neg (by simp)]
        dsimp only
        rw [hsize, hplen, framedLen_append, framedLen, framedLen]
        have hlt : framedLen vs + (8 + (8 + v.length)) < 2 ^ 64 := by
          have : (2 : Nat) ^ 63 < 2 ^ 64 := by norm_num
          omega
        rw [Nat.mod_eq_of_lt hlt]
        omega
      · dsimp only [storeAppend]
        rw [if_neg (by simp)]
        dsimp only
        rw [hents, hsize, hrel, entriesOf_snoc]
        simp

theorem appendAll_inv (B : Nat) :
    ∀ (rest pre : List (List Nat)) (seg : Segment) (out : List (Nat × Record)) (seg' : Segment),
    Inv B pre seg → Small B (pre ++ rest) →
    appendAll seg rest = .ok (out, seg') →
    Inv B (pre ++ rest) seg' ∧
    out.map Prod.fst = List.range' (B + pre.length) rest.length ∧
    ∀ pr ∈ out, pr.2.offset = pr.1 := by
  intro rest
  induction rest with
  | nil =>
    intro pre seg out seg' hinv hsm happ
    unfold appendAll at happ
    injection happ with h1
    injection h1 with ho hs
    subst ho
    subst hs
    rw [List.append_nil]
    exact ⟨hinv, by simp [List.range'], by simp⟩
  | cons v rest' ih =>
    intro pre seg out seg' hinv hsm happ
    unfold appendAll at happ
    split at happ
    · cases happ
    · rename_i off seg1 rec1 heq
      split at happ
      · cases happ
      · rename_i out1 seg2 heq2
        injection happ with h1
        injection h1 with ho hs
        subst ho
        subst hs
        have hsm1 : Small B (pre ++ [v]) := Small_of_snoc B pre v rest' hsm
        obtain ⟨hoff, hrec, hinv1⟩ := append_step B pre seg v 0 off seg1 rec1 hinv hsm1 heq
        have hsm2 : Small B ((pre ++ [v]) ++ rest') := by
          rw [List.append_assoc]
          simpa using hsm
        obtain ⟨hinv2, hmap, hall⟩ := ih (pre ++ [v]) seg1 out1 seg2 hinv1 hsm2 heq2
        refine ⟨?_, ?_, ?_⟩
        · rw [← List.singleton_append, ← List.append_assoc]
          exact hinv2
        · rw [List.map_cons, hmap, List.length_cons]
          simp only [List.length_append, List.length_cons, List.length_nil]
          rw [List.range'_succ, hoff]
          have h1' : B + pre.length + 1 = B + (pre.length + (0 + 1)) := by omega
          rw [h1']
        · intro pr hpr
          rcases List.mem_cons.mp hpr with h' | h'
          · subst h'
            rw [hrec, hoff]
          · exact hall pr h'

/-- C4: N successful appends on a fresh segment with baseOffset B
return exactly the offsets B, B+1, …, B+N-1 in order, and each
appended record's own offset field equals the offset returned by its
call. -/
theorem segment_append_offsets (B : Nat) (c : Config) (vs : List (List Nat))
    (out : List (Nat × Record)) (seg' : Segment)
    (happ : appendAll (newSegmentM [] [] B c) vs = .ok (out, seg'))
    (hsm : Small B vs) :
    out.map Prod.fst = List.range' B vs.length ∧ ∀ pr ∈ out, pr.2.offset = pr.1 := by
  obtain ⟨hinv, hmap, hall⟩ := appendAll_inv B vs [] (newSegmentM [] [] B c) out seg'
    (Inv_fresh B c) (by simpa using hsm) happ
  exact ⟨by simpa using hmap, hall⟩

/-- Witness for C4: two appends on a fresh segment with base offset 5
return offsets 5 and 6, each stamped into its record. -/
theorem segment_append_offsets_witness :
    ∃ pr : List (Nat × Record) × Segment,
      appendAll (newSegmentM [] [] 5 ⟨4096, 4096⟩) [[1], [2, 3]] = .ok pr ∧
      pr.1.map Prod.fst = List.range' 5 2 ∧ ∀ x ∈ pr.1, x.2.offset = x.1 := by
  refine ⟨_, rfl, ?_⟩
  exact segment_append_offsets 5 ⟨4096, 4096⟩ [[1], [2, 3]] _ _ rfl ⟨by decide, by decide⟩

theorem storeBytesFrom_drop (B : Nat) :
    ∀ (pre suf : List (List Nat)) (k : Nat),
    (storeBytesFrom B k (pre ++ suf)).drop (framedLen pre) =
      storeBytesFrom B (k + pre.length) suf := by
  intro pre
  induction pre with
  | nil =>
    intro suf k
    simp [framedLen]
  | cons v pre' ih =>
    intro suf k
    simp only [List.cons_append, storeBytesFrom, framedLen, List.append_eq, List.length_cons]
    have hchunk : (toBE8 (8 + v.length) ++ (toBE8 (B + k) ++ v)).length = 16 + v.length := by
      simp [toBE8_length]
      omega
    rw [show 16 + v.length + framedLen pre' = 16 + v.length + framedLen pre' from rfl,
      ← List.drop_drop, List.drop_left' hchunk, ih suf (k + 1)]
    have h1 : k + 1 + pre'.length = k + (pre'.length + 1) := by omega
    rw [h1]

theorem indexRead_nat (idx : Index) (i : Nat) (e : Nat × Nat)
    (h : idx.entries[i]? = some e) : indexRead idx (i : Int) = .ok e := by
  unfold indexRead
  rw [if_neg (by omega), if_pos (by omega), Int.toNat_natCast, h]

theorem storeRead_frame (B : Nat) (pre : List (List Nat)) (v : List Nat)
    (post : List (List Nat)) (s : Store)
    (hfile : s.file ++ s.buf = storeBytes B (pre ++ v :: post))
    (hb : framedLen (pre ++ v :: post) < 2 ^ 63) :
    storeRead s (framedLen pre) =
      (.ok (toBE8 (B + pre.length) ++ v), ⟨s.file ++ s.buf, [], s.size⟩) := by
  have hfl : framedLen (pre ++ v :: post) =
      framedLen pre + (16 + v.length) + framedLen post := by
    rw [framedLen_append, framedLen]
    omega
  have hflen : (s.file ++ s.buf).length = framedLen (pre ++ v :: post) := by
    rw [hfile, storeBytes, storeBytesFrom_length]
  have hdrop : (s.file ++ s.buf).drop (framedLen pre) =
      toBE8 (8 + v.length) ++ ((toBE8 (B + pre.length) ++ v) ++ storeBytesFrom B (pre.length + 1) post) := by
    rw [hfile, storeBytes, storeBytesFrom_drop B pre (v :: post) 0]
    simp only [storeBytesFrom, Nat.zero_add, List.append_assoc]
  unfold storeRead
  rw [if_neg (by omega), if_neg (by rw [hflen]; omega)]
  rw [hdrop]
  rw [List.take_left' (toBE8_length (8 + v.length))]
  rw [fromBE8_toBE8, Nat.mod_eq_of_lt (by omega)]
  rw [if_neg (by rw [hflen]; omega)]
  rw [← List.drop_drop, hdrop, List.drop_left' (toBE8_length (8 + v.length))]
  rw [List.take_left' (by simp [toBE8_length])]

theorem unmarshal_toBE8 (n : Nat) (v : List Nat) (h : n < 2 ^ 64) :
    unmarshal (toBE8 n ++ v) = .ok ⟨n, v⟩ := by
  unfold unmarshal
  rw [if_neg (by simp [toBE8_length])]
  rw [List.take_left' (toBE8_length n), List.drop_left' (toBE8_length n),
    fromBE8_toBE8, Nat.mod_eq_of_lt h]

theorem segment_read_at (B : Nat) (pre : List (List Nat)) (v : List Nat)
    (post : List (List Nat)) (seg : Segment)
    (hinv : Inv B (pre ++ v :: post) seg) (hsm : Small B (pre ++ v :: post)) :
    segmentRead seg (B + pre.length) = (.ok ⟨B + pre.length, v⟩, flushSeg seg) := by
  obtain ⟨hbase, hnext, hfile, hsize, hents⟩ := hinv
  obtain ⟨hsm1, hsm2⟩ := hsm
  have hlen : (pre ++ v :: post).length = pre.length + (post.length + 1) := by
    simp [List.length_append]
  have hfl : framedLen (pre ++ v :: post) =
      framedLen pre + (16 + v.length) + framedLen post := by
    rw [framedLen_append, framedLen]
    omega
  have htotle := length_le_framedLen (pre ++ v :: post)
  have hprelen63 : pre.length < 2 ^ 63 := by omega
  have hprelen64 : pre.length < 2 ^ 64 := by omega
  have hget : seg.index.entries[pre.length]? = some (pre.length % 2 ^ 32, framedLen pre) := by
    rw [hents]
    have h' := entriesOf_getElem (pre ++ v :: post) pre.length 0 0 (by omega)
    rw [List.take_left] at h'
    simpa using h'
  simp only [segmentRead]
  rw [hbase, wrap_cancel B pre.length hprelen64, if_pos hprelen63]
  rw [indexRead_nat seg.index pre.length _ hget]
  dsimp only
  rw [storeRead_frame B pre v post seg.store hfile hsm2]
  dsimp only
  rw [unmarshal_toBE8 (B + pre.length) v (by omega)]
  dsimp only
  simp [flushSeg, hbase]

theorem readAll_inv (B : Nat) :
    ∀ (suf pre : List (List Nat)) (seg : Segment),
    Inv B (pre ++ suf) seg → Small B (pre ++ suf) →
    ∃ rs seg', readAll seg (List.range' (B + pre.length) suf.length) = .ok (rs, seg') ∧
      rs.map Record.value = suf := by
  intro suf
  induction suf with
  | nil =>
    intro pre seg hinv hsm
    exact ⟨[], seg, rfl, rfl⟩
  | cons v suf' ih =>
    intro pre seg hinv hsm
    have hread := segment_read_at B pre v suf' seg hinv hsm
    have hinv' : Inv B ((pre ++ [v]) ++ suf') (flushSeg seg) := by
      rw [List.append_assoc]
      simpa using Inv_flush B (pre ++ v :: suf') seg hinv
    have hsm' : Small B ((pre ++ [v]) ++ suf') := by
      rw [List.append_assoc]
      simpa using hsm
    obtain ⟨rs, seg', hra, hval⟩ := ih (pre ++ [v]) (flushSeg seg) hinv' hsm'
    refine ⟨⟨B + pre.length, v⟩ :: rs, seg', ?_, ?_⟩
    · rw [List.length_cons, List.range'_succ]
      unfold readAll
      rw [hread]
      dsimp only
      have harg : B + pre.length + 1 = B + (pre ++ [v]).length := by
        simp only [List.length_append, List.length_cons, List.length_nil]
        omega
      rw [harg, hra]
    · simp [hval]

/-- C3: payloads appended to a fresh segment read back unchanged, in
order, at the offsets assigned by append — including payloads still in
the store's write buffer, which every store read flushes first. -/
theorem segment_roundtrip (B : Nat) (c : Config) (vs : List (List Nat))
    (out : List (Nat × Record)) (seg' : Segment)
    (happ : appendAll (newSegmentM [] [] B c) vs = .ok (out, seg'))
    (hsm : Small B vs) :
    ∃ rs seg'', readAll seg' (out.map Prod.fst) = .ok (rs, seg'') ∧
      rs.map Record.value = vs := by
  obtain ⟨hinv, hmap, hall⟩ := appendAll_inv B vs [] (newSegmentM [] [] B c) out seg'
    (Inv_fresh B c) (by simpa using hsm) happ
  rw [List.nil_append] at hinv
  have h := readAll_inv B vs [] seg' (by simpa using hinv) (by simpa using hsm)
  rw [hmap]
  simpa using h

/-- Witness for C3: two payloads appended at base offset 2 read back
unchanged at the returned offsets. -/
theorem segment_roundtrip_witness :
    ∃ pr : List (Nat × Record) × Segment,
      appendAll (newSegmentM [] [] 2 ⟨4096, 4096⟩) [[7], [8, 9]] = .ok pr ∧
      ∃ rs seg'', readAll pr.2 (pr.1.map Prod.fst) = .ok (rs, seg'') ∧
        rs.map Record.value = [[7], [8, 9]] := by
  refine ⟨_, rfl, ?_⟩
  exact segment_roundtrip 2 ⟨4096, 4096⟩ [[7], [8, 9]] _ _ rfl ⟨by decide, by decide⟩

/-- C6: closing a segment that had K records appended and reopening it
on the same directory and base offset recovers nextOffset = B + K from
the index's last entry (read(-1)); with K = 0 the index is empty and
nextOffset is exactly B. -/
theorem indexRead_last (idx : Index) (e : Nat × Nat)
    (h : idx.entries.getLast? = some e) : indexRead idx (-1) = .ok e := by
  unfold indexRead
  rw [if_pos rfl, h]

theorem segment_resume (B : Nat) (c : Config) (vs : List (List Nat))
    (out : List (Nat × Record)) (seg' : Segment)
    (happ : appendAll (newSegmentM [] [] B c) vs = .ok (out, seg'))
    (hsm : Small B vs) (h32 : vs.length ≤ 2 ^ 32) :
    (newSegmentM (closeSegment seg').1 (closeSegment seg').2 B c).nextOffset
      = B + vs.length := by
  obtain ⟨hinv, hmap, hall⟩ := appendAll_inv B vs [] (newSegmentM [] [] B c) out seg'
    (Inv_fresh B c) (by simpa using hsm) happ
  rw [List.nil_append] at hinv
  obtain ⟨hbase, hnext, hfile, hsize, hents⟩ := hinv
  cases vs with
  | nil =>
    simp [closeSegment, newSegmentM, indexRead, hents, entriesOf]
  | cons w ws =>
    have hlast : seg'.index.entries.getLast? = some (ws.length % 2 ^ 32, framedLen ((w :: ws).take ws.length)) := by
      rw [hents, List.getLast?_eq_getElem?, entriesOf_length]
      have h' := entriesOf_getElem (w :: ws) ((w :: ws).length - 1) 0 0 (by simp)
      simp only [List.length_cons, Nat.add_sub_cancel] at h' ⊢
      simpa using h'
    have hws32 : ws.length < 2 ^ 32 := by
      simp only [List.length_cons] at h32
      omega
    have hlen64 : B + (ws.length + 1) < 2 ^ 64 := by
      have h' := hsm.1
      simp only [List.length_cons] at h'
      omega
    have hiR : indexRead ⟨seg'.index.entries, nearestMultiple c.maxIndexBytes 12⟩ (-1)
        = Except.ok (ws.length % 2 ^ 32, framedLen (List.take ws.length (w :: ws))) :=
      indexRead_last _ _ hlast
    simp only [closeSegment, newSegmentM]
    rw [hiR]
    dsimp only
    simp only [List.length_cons]
    rw [Nat.mod_eq_of_lt hws32]
    have harith : B + ws.length + 1 = B + (ws.length + 1) := by omega
    rw [harith, Nat.mod_eq_of_lt hlen64]

/-- Witness for C6: two records appended at base offset 7; after close
and reopen the recovered nextOffset is 9. -/
theorem segment_resume_witness :
    ∃ pr : List (Nat × Record) × Segment,
      appendAll (newSegmentM [] [] 7 ⟨4096, 4096⟩) [[1], [2]] = .ok pr ∧
      (newSegmentM (closeSegment pr.2).1 (closeSegment pr.2).2 7 ⟨4096, 4096⟩).nextOffset
        = 7 + 2 := by
  refine ⟨_, rfl, ?_⟩
  exact segment_resume 7 ⟨4096, 4096⟩ [[1], [2]] _ _ rfl ⟨by decide, by decide⟩ (by decide)

theorem reach_state (B : Nat) (c : Config) (seg : Segment) (h : Reach B c seg)
    (hB : B < 2 ^ 64) :
    seg.baseOffset = B ∧ seg.nextOffset = (B + seg.index.entries.length) % 2 ^ 64 := by
  induction h with
  | init =>
    refine ⟨rfl, ?_⟩
    simp [newSegmentM, indexRead, newStore]
    omega
  | append seg rec mf sf hr ih =>
    obtain ⟨ih1, ih2⟩ := ih
    cases mf
    · unfold segmentAppend
      rw [if_neg (by simp)]
      dsimp only
      split
      · exact ⟨ih1, ih2⟩
      · rename_i idx' hiw
        unfold indexWrite at hiw
        split at hiw
        · cases hiw
        · injection hiw with hidx
          subst hidx
          refine ⟨ih1, ?_⟩
          dsimp only
          rw [ih2, List.length_append, List.length_cons, List.length_nil, Nat.mod_add_mod]
          have harith : B + seg.index.entries.length + 1
              = B + (seg.index.entries.length + (0 + 1)) := by omega
          rw [harith]
    · unfold segmentAppend
      rw [if_pos rfl]
      exact ⟨ih1, ih2⟩
  | read seg off hr ih =>
    obtain ⟨ih1, ih2⟩ := ih
    unfold segmentRead
    dsimp only
    split
    · exact ⟨ih1, ih2⟩
    · split
      · exact ⟨ih1, ih2⟩
      · split
        · exact ⟨ih1, ih2⟩
        · exact ⟨ih1, ih2⟩

/-- C7: in every reachable segment state, nextOffset is at least
baseOffset, with equality exactly when the segment holds no records
(stated below the uint64 wrap point of the offset counter). -/
theorem segment_nextOffset_invariant (B : Nat) (c : Config) (seg : Segment)
    (h : Reach B c seg) (hB : B < 2 ^ 64)
    (hnw : B + seg.index.entries.length < 2 ^ 64) :
    seg.baseOffset ≤ seg.nextOffset ∧
    (seg.nextOffset = seg.baseOffset ↔ seg.index.entries = []) := by
  obtain ⟨h1, h2⟩ := reach_state B c seg h hB
  rw [h1, h2, Nat.mod_eq_of_lt hnw]
  refine ⟨by omega, ?_, ?_⟩
  · intro he
    have hz : seg.index.entries.length = 0 := by omega
    exact List.length_eq_zero.mp hz
  · intro he
    rw [he]
    simp

/-- Witness for C7 at the reachable state reached by one successful
append on a fresh segment with base offset 0. -/
theorem segment_nextOffset_invariant_witness :
    (segmentAppend (newSegmentM [] [] 0 ⟨1024, 1024⟩) ⟨0, [1]⟩ false false).2.1.baseOffset ≤
      (segmentAppend (newSegmentM [] [] 0 ⟨1024, 1024⟩) ⟨0, [1]⟩ false false).2.1.nextOffset ∧
    ((segmentAppend (newSegmentM [] [] 0 ⟨1024, 1024⟩) ⟨0, [1]⟩ false false).2.1.nextOffset =
        (segmentAppend (newSegmentM [] [] 0 ⟨1024, 1024⟩) ⟨0, [1]⟩ false false).2.1.baseOffset ↔
      (segmentAppend (newSegmentM [] [] 0 ⟨1024, 1024⟩) ⟨0, [1]⟩ false false).2.1.index.entries = []) :=
  segment_nextOffset_invariant 0 ⟨1024, 1024⟩ _
    (Reach.append _ ⟨0, [1]⟩ false false Reach.init) (by decide) (by decide)

end Proglog
